import Mathlib

/-!
# Verification of the hybrid lexical-semantic retrieval engine

Shallow embedding of `src/rag/chromadb_api.py` (hybrid BM25 + vector search
service).  Pure program logic (tokenization, cache management, rank fusion,
attribute post-filtering, request orchestration) is translated directly from
the Python source.  External collaborators (the sentence-transformer embedder,
the ChromaDB vector store, and the third-party `rank_bm25` scorer) are
modelled as oracle functions carried in an environment record, with `Except`
results standing for Python exceptions.  IEEE floating point scores are
idealized as exact rationals (`ℚ`); Python machine integers fit in `Int`/`Nat`.
-/

deriving instance DecidableEq for Except

namespace ChromadbApi

/-! ## Stable sorting

The Python builtins `sorted(..., key=..., reverse=True)` and `list.sort(...)` are stable.
A stable sort with respect to a total preorder is extensionally unique, so we
embed it with a structural insertion sort (`sortBy`): `le x y = true` means
"x may come before y"; on ties the earlier input element stays first, exactly
as in CPython Timsort. -/

def insertLe (le : α → α → Bool) (x : α) : List α → List α
  | [] => [x]
  | y :: ys => if le x y then x :: y :: ys else y :: insertLe le x ys

def sortBy (le : α → α → Bool) : List α → List α
  | [] => []
  | x :: xs => insertLe le x (sortBy le xs)

/-! ## Characters and strings

The service lower/upper-cases with the Python `str.lower`/`str.upper`; the
engine only relies on their ASCII behaviour (`'A'..'Z' ↔ 'a'..'z'`), which is
what we embed. -/

def lowerChar (c : Char) : Char :=
  if 'A' ≤ c ∧ c ≤ 'Z' then Char.ofNat (c.toNat + 32) else c

def upperChar (c : Char) : Char :=
  if 'a' ≤ c ∧ c ≤ 'z' then Char.ofNat (c.toNat - 32) else c

def strLower (s : String) : String := ⟨s.data.map lowerChar⟩

def strUpper (s : String) : String := ⟨s.data.map upperChar⟩

/-- The Python substring test `needle in hay`. -/
def strContains (hay needle : String) : Bool := decide (needle.data <:+: hay.data)

/-! ## Tokenizer

The source tokenizes with a regex findall over the lower-cased text, whose
pattern matches word-character runs or CJK runs.  On ASCII text the regex
extracts the maximal runs of word characters (letters, digits, underscore)
of the lower-cased input; this is the fragment the embedding covers. -/

def isWordChar (c : Char) : Bool := c.isAlphanum || c == '_'

/-- Maximal runs of characters satisfying `p`, in order; non-`p` characters
are separators and are dropped (the behaviour of `re.findall` with a
`\w+`-style pattern). -/
def runsWhile (p : Char → Bool) : List Char → List (List Char)
  | [] => []
  | [c] => if p c then [[c]] else []
  | c :: d :: cs =>
    let r := runsWhile p (d :: cs)
    if p c then
      if p d then
        match r with
        | [] => [[c]]
        | t :: ts => (c :: t) :: ts
      else [c] :: r
    else r

def tokenize (s : String) : List String :=
  (runsWhile isWordChar (s.data.map lowerChar)).map List.asString

/-- Rejoins a token list with single spaces (the spec `tokenize_join`
helper used to state the tokenizer round-trip property). -/
def tokenizeJoin : List String → String
  | [] => ""
  | [t] => t
  | t :: t2 :: ts => t ++ " " ++ tokenizeJoin (t2 :: ts)

/-- Character-level view of `tokenizeJoin`. -/
def joinSpaceChars : List (List Char) → List Char
  | [] => []
  | [t] => t
  | t :: t2 :: ts => t ++ ' ' :: joinSpaceChars (t2 :: ts)

/-! ## Data model -/

/-- One scalar equality predicate of a structured metadata filter, as built by
`build_where_clause`.  The Python representation is a ChromaDB `where` dict
(a single-field dict, or a dict with `$and` over single-field dicts); both
shapes are captured by a list of predicates, conjunction being implicit. -/
inductive WherePred where
  | screenName (s : String)
  | sentiment (s : String)
  | marketRelated (b : Bool)
deriving DecidableEq, Repr

/-- The value of the array-valued `gpt_assets` metadata field, represented by
the outcome of the `json.loads` call `filter_by_asset` applies to it:
either it parses to a JSON array (whose entries we model as strings),
or it parses to some non-array JSON value, or parsing raises and the raw
string is used for a substring fallback. -/
inductive AssetsField where
  | jlist (l : List String)
  | jother
  | malformed (raw : String)
deriving DecidableEq, Repr

/-- The metadata fields the engine reads.  Missing keys default in Python to
the same neutral values a missing field carries here. -/
structure Metadata where
  screen_name : String := ""
  display_name : String := ""
  gpt_sentiment : String := ""
  is_market_related : Bool := false
  gpt_assets : AssetsField := .jlist []
deriving DecidableEq, Repr

/-- A stored document: the ChromaDB trio of parallel lists
(id / document text / metadata), packaged per record.  The same record shape
is what `hybrid_search` builds in its `doc_map` and returns. -/
structure Doc where
  id : String
  document : String
  metadata : Metadata
deriving DecidableEq, Repr

def matchesPred (m : Metadata) : WherePred → Bool
  | .screenName s => m.screen_name == s
  | .sentiment s => m.gpt_sentiment == s
  | .marketRelated b => m.is_market_related == b

def matchesWhere (w : List WherePred) (m : Metadata) : Bool :=
  w.all (matchesPred m)

/-- The scalar-filtered corpus in the vector store, as read by
`collection.get` (full fetch, where-filtered fetch, or limited fetch). -/
structure Store where
  docs : List Doc

/-- One neighbor returned by `collection.query`: the ChromaDB parallel result
lists (ids / distances / documents / metadatas), per hit. -/
structure VHit where
  id : String
  distance : ℚ
  document : String
  metadata : Metadata
deriving DecidableEq, Repr

/-- External collaborators of the engine.  `Except Unit` results stand for
Python exceptions raised by the call:
* `encode` — the sentence-transformer embedder;
* `vquery` — `collection.query` (embedding, optional where filter, n_results);
* `bm25Scores` — `BM25Okapi(tokenized_docs).get_scores(query_tokens)`, the
  third-party `rank_bm25` scorer (one score per corpus document);
* `getWhereRaises` — whether the where-filtered `collection.get` raises
  (the source falls back to an unfiltered fetch in that case). -/
structure Env where
  store : Store
  getWhereRaises : Bool := false
  encode : String → Except Unit (List ℚ)
  vquery : List ℚ → Option (List WherePred) → Nat → Except Unit (List VHit)
  bm25Scores : List (List String) → List String → List ℚ

/-- The process-wide lexical cache: the pair of globals `_bm25_index`
(the BM25 model, i.e. the tokenized corpus it was fitted on) and
`_documents_cache` (ids / documents / metadatas).  The two globals are
always written together, so one optional record models both. -/
structure BM25State where
  tokenizedDocs : List (List String)
  ids : List String
  documents : List String
  metadatas : List Metadata
deriving DecidableEq, Repr

/-- Python truthiness of an optional string (None and the empty string are
falsy). -/
def optStrTruthy : Option String → Bool
  | some s => s != ""
  | none => false

/-- Python truthiness of an optional list (None and the empty list are
falsy). -/
def optListTruthy : Option (List String) → Bool
  | some l => !l.isEmpty
  | none => false

/-! ## build_where_clause -/

/-- Embeds build_where_clause: collects one equality predicate per provided
scalar argument (`asset` is deliberately never added — the source defers it
to the result-level post-filter), returning `none` when no predicate
applies.  The Python single-dict vs `$and`-dict distinction is a pure
encoding detail of the returned predicate list. -/
def build_where_clause (trader_name : Option String) (asset : Option String)
    (sentiment : Option String) (is_market_related : Option Bool) :
    Option (List WherePred) :=
  let _ := asset
  let parts : List WherePred :=
    (match trader_name with
      | some t => if t != "" then [WherePred.screenName t] else []
      | none => []) ++
    (match sentiment with
      | some s => if s != "" then [WherePred.sentiment s] else []
      | none => []) ++
    (match is_market_related with
      | some b => [WherePred.marketRelated b]
      | none => [])
  if parts.isEmpty then none else some parts

/-! ## build_bm25_index -/

/-- Tail of `build_bm25_index` from line 169 on: tokenize the fetched
documents, fit the BM25 model, and overwrite the cache; with zero documents
return no index and leave the cache untouched. -/
def finishBuild (fetched : List Doc) (st : Option BM25State) (fetches : Nat) :
    Option BM25State × Option BM25State × Nat :=
  if fetched.isEmpty then (none, st, fetches)
  else
    let documents := fetched.map (·.document)
    let tokenized_docs := documents.map tokenize
    let newSt : BM25State :=
      ⟨tokenized_docs, fetched.map (·.id), documents, fetched.map (·.metadata)⟩
    (some newSt, some newSt, fetches)

/-- Embeds build_bm25_index: returns (result, new cache state, number of store
fetches performed).  Fidelity notes, traced from lines 112-193:
* line 115 computes `cache_key = str(where_clause) if where_clause else
  "all"`, but the cached key is never stored; the only use of `cache_key`
  is the test `where_clause is None or cache_key == "all"`, which holds
  exactly when the incoming filter is empty — so a cache hit occurs iff
  the incoming `where_clause` is `None`, regardless of which filter
  populated the cache;
* when the where-filtered fetch raises, the code falls back to an
  unfiltered fetch (two store calls);
* on an empty fetch with a truthy `trader_name`, a `limit=100` fetch feeds
  a case-insensitive substring fallback over `screen_name`/`display_name`;
* the `(None, None)` returns leave the previous cache in place. -/
def build_bm25_index (env : Env) (trader_name : Option String)
    (where_clause : Option (List WherePred)) (st : Option BM25State) :
    Option BM25State × Option BM25State × Nat :=
  if st.isSome && where_clause == none then (st, st, 0)
  else
    let w : Option (List WherePred) :=
      match where_clause, trader_name with
      | none, some t => if t != "" then some [WherePred.screenName t] else none
      | wc, _ => wc
    let fetched : List Doc × Nat :=
      match w with
      | some ws =>
        if env.getWhereRaises then (env.store.docs, 2)
        else (env.store.docs.filter (fun d => matchesWhere ws d.metadata), 1)
      | none => (env.store.docs, 1)
    if fetched.1.isEmpty then
      if optStrTruthy trader_name then
        let t := trader_name.getD ""
        let all_results := env.store.docs.take 100
        let filtered := all_results.filter (fun d =>
          strContains (strLower d.metadata.screen_name) (strLower t) ||
          strContains (strLower d.metadata.display_name) (strLower t))
        if filtered.isEmpty then (none, st, fetched.2 + 1)
        else finishBuild filtered st (fetched.2 + 1)
      else (none, st, fetched.2)
    else finishBuild fetched.1 st fetched.2

/-! ## rrf_merge -/

/-- The 1-based rank a Python dict comprehension
`{doc_id: rank + 1 for rank, (doc_id, _) in enumerate(results)}` assigns:
the last occurrence wins on duplicate ids. -/
def lastIdx (id : String) : List String → Option Nat
  | [] => none
  | d :: rest =>
    match lastIdx id rest with
    | some j => some (j + 1)
    | none => if d == id then some 0 else none

def rankOf (results : List (String × ℚ)) (id : String) : Option Nat :=
  (lastIdx id (results.map Prod.fst)).map (· + 1)

/-- One RRF contribution `1.0 / (k + rank)`; absent from the list means no
contribution (the `defaultdict(float)` starts at 0). -/
def rrfContribution (k : ℤ) : Option Nat → ℚ
  | some rank => 1 / ((k : ℚ) + rank)
  | none => 0

def rrfScore (vector_results bm25_results : List (String × ℚ)) (k : ℤ)
    (id : String) : ℚ :=
  rrfContribution k (rankOf vector_results id) +
    rrfContribution k (rankOf bm25_results id)

/-- First-occurrence deduplication (one admissible realization of iterating
the Python id set). -/
def dedupFirst : List String → List String
  | [] => []
  | x :: xs => x :: (dedupFirst xs).filter (fun y => y ≠ x)

/-- Embeds rrf_merge: rank both input lists, sum the reciprocal-rank
contributions, and sort all ids by fused score, descending.  The Python
`sorted` runs over the iteration order of a `set` union, which is
unspecified; first-occurrence order is one admissible realization and only
affects tie-breaking among equal fused scores. -/
def rrf_merge (vector_results bm25_results : List (String × ℚ)) (k : ℤ) :
    List String :=
  let all_doc_ids :=
    dedupFirst (vector_results.map Prod.fst ++ bm25_results.map Prod.fst)
  sortBy (fun a b =>
      decide (rrfScore vector_results bm25_results k b ≤
              rrfScore vector_results bm25_results k a))
    all_doc_ids

/-! ## filter_by_asset -/

/-- The per-result keep test of `filter_by_asset` (lines 306-323): parse
`gpt_assets`; on a JSON array, keep iff it contains any requested asset
(upper-cased, OR-logic); on a non-array JSON value, drop silently; on a
parse failure, substring-match the upper-cased raw string. -/
def assetKeep (target_assets : List String) (result : Doc) : Bool :=
  match result.metadata.gpt_assets with
  | .jlist l =>
    let assets_upper := l.map strUpper
    target_assets.any (fun t => assets_upper.contains t)
  | .jother => false
  | .malformed raw =>
    let gpt_assets_upper := strUpper raw
    target_assets.any (fun t => strContains gpt_assets_upper t)

/-- Embeds filter_by_asset (lines 268-325). -/
def filter_by_asset (results : List Doc) (asset : Option String)
    (assets : Option (List String)) : List Doc :=
  if optStrTruthy asset && strLower (asset.getD "") == "blur" then results
  else
    let target? : Option (List String) :=
      if optListTruthy assets then
        let l := assets.getD []
        if l.any (fun a => strLower a == "blur") then none
        else some ((l.filter (fun a => a != "" && strLower a != "blur")).map strUpper)
      else if optStrTruthy asset then some [strUpper (asset.getD "")]
      else none
    match target? with
    | none => results
    | some target_assets =>
      if target_assets.isEmpty then results
      else results.filter (assetKeep target_assets)

/-! ## hybrid_search -/

/-- Lines 448-452: asset filtering is skipped when the single asset is the
"blur" sentinel or the asset list contains it. -/
def shouldFilterAsset (asset : Option String) (assets : Option (List String)) : Bool :=
  if optStrTruthy asset && strLower (asset.getD "") == "blur" then false
  else if optListTruthy assets &&
      (assets.getD []).any (fun a => strLower a == "blur") then false
  else true

/-- Embeds hybrid_search (lines 328-457), threading the lexical-cache state and
returning `Except.error` where the Python function lets an exception
escape.  Fidelity notes:
* the BM25 score filter keeps strictly positive scores, then sorts
  descending (stable) and keeps `limit * 2` entries;
* the embedder call (line 390) is **not** inside a try block;
* the where-filtered `collection.query` is retried without the filter on
  failure (lines 393-404); a failure of the retry escapes;
* `doc_map` resolution prefers the lexical-cache copy (later duplicates of
  an id overwrite earlier ones) and falls back to the first vector hit for
  ids the cache lacks;
* truncation to `limit` happens at line 442 on the fused id list, before
  the asset post-filter; the final `[:limit]` at line 457 is applied to the
  post-filtered list. -/
def hybrid_search (env : Env) (query_text : String)
    (trader_name : Option String := none) (asset : Option String := none)
    (assets : Option (List String) := none) (sentiment : Option String := none)
    (is_market_related : Option Bool := none) (limit : Nat := 20)
    (st : Option BM25State := none) :
    Except Unit (List Doc) × Option BM25State :=
  let where_clause := build_where_clause trader_name none sentiment is_market_related
  match build_bm25_index env trader_name where_clause st with
  | (none, st2, _) => (.ok [], st2)
  | (some bm, st2, _) =>
    let query_tokens := tokenize query_text
    let bm25_scores := env.bm25Scores bm.tokenizedDocs query_tokens
    let positive := (bm.ids.zip bm25_scores).filter (fun p => decide (0 < p.2))
    let bm25_results := (sortBy (fun a b => decide (b.2 ≤ a.2)) positive).take (limit * 2)
    match env.encode query_text with
    | .error e => (.error e, st2)
    | .ok query_embedding =>
      let vres : Except Unit (List VHit) :=
        match env.vquery query_embedding where_clause (limit * 2) with
        | .ok r => .ok r
        | .error _ => env.vquery query_embedding none (limit * 2)
      match vres with
      | .error e => (.error e, st2)
      | .ok vhits =>
        let vector_scores := vhits.map
          (fun h : VHit => (h.id, 1 / (1 + h.distance)))
        let merged_doc_ids := rrf_merge vector_scores bm25_results 60
        let bm_entries : List (String × Doc) :=
          (bm.ids.zip (bm.documents.zip bm.metadatas)).map
            (fun p => (p.1, ⟨p.1, p.2.1, p.2.2⟩))
        let lookupDoc : String → Option Doc := fun id =>
          match (bm_entries.filter (fun p => p.1 == id)).getLast? with
          | some p => some p.2
          | none => (vhits.find? (fun h => h.id == id)).map
              (fun h => ⟨h.id, h.document, h.metadata⟩)
        let results := (merged_doc_ids.take limit).filterMap lookupDoc
        let results :=
          if shouldFilterAsset asset assets && (optStrTruthy asset || optListTruthy assets)
          then filter_by_asset results asset assets else results
        (.ok (results.take limit), st2)

/-! ## HTTP routes -/

structure QueryRequest where
  trader_name : Option String := none
  asset : Option String := none
  assets : Option (List String) := none
  sentiment : Option String := none
  is_market_related : Option Bool := none
  query_text : String := ""
  limit : Nat := 5
deriving DecidableEq, Repr

/-- The JSON body the routes answer with.  The exact human-readable error
strings are irrelevant to the claims; only emptiness of `error_reason` and
the HTTP status are modelled faithfully. -/
structure QueryResponse where
  trader_name : String
  viewpoints : List String
  error_reason : String
  status : Nat
deriving DecidableEq, Repr

/-- Viewpoint truncation of the routes (lines 552-558 and 631-637):
`doc[:500] if len(doc) <= 500 else doc[:497] + "..."`. -/
def truncateViewpoint (doc : String) : String :=
  if doc.length ≤ 500 then ⟨doc.data.take 500⟩ else ⟨doc.data.take 497⟩ ++ "..."

/-- Viewpoint extraction of both routes: skip falsy (empty) documents,
truncate the rest. -/
def extractViewpoints (results : List Doc) : List String :=
  results.filterMap (fun r =>
    if r.document != "" then some (truncateViewpoint r.document) else none)

/-- Route-level normalization of the `assets` body field (lines 520-524):
drop entries that strip to empty, collapse an empty list to `None`.
Entries are modelled as already stripped. -/
def normalizeAssets : Option (List String) → Option (List String)
  | some l =>
    let l2 := l.filter (fun a => a != "")
    if l2.isEmpty then none else some l2
  | none => none

/-- The `/query` route (lines 479-571).  The whole Python body runs inside
one try/except that converts any escaped exception into an error response,
so the embedding is a total function; request fields are modelled
post-parsing (stripped, with empty strings collapsed to `none` exactly as
`data.get(...).strip() or None` does). -/
def query (env : Env) (req : QueryRequest) (st : Option BM25State) :
    QueryResponse × Option BM25State :=
  if req.query_text = "" then
    ({ trader_name := req.trader_name.getD "", viewpoints := [],
       error_reason := "query text empty", status := 400 }, st)
  else
    match hybrid_search env req.query_text req.trader_name req.asset
        (normalizeAssets req.assets) req.sentiment req.is_market_related
        req.limit st with
    | (.ok results, st2) =>
      ({ trader_name := req.trader_name.getD "",
         viewpoints := extractViewpoints results,
         error_reason := "", status := 200 }, st2)
    | (.error _, st2) =>
      ({ trader_name := req.trader_name.getD "", viewpoints := [],
         error_reason := "server error", status := 500 }, st2)

/-- The `/query_by_name` route (lines 574-650): hybrid search with the
trader name doubling as query text; an empty trader name is answered with
an error payload (and, unlike `/query`, HTTP 200). -/
def query_by_name (env : Env) (req : QueryRequest) (st : Option BM25State) :
    QueryResponse × Option BM25State :=
  let t := req.trader_name.getD ""
  if t = "" then
    ({ trader_name := "", viewpoints := [],
       error_reason := "trader name empty", status := 200 }, st)
  else
    match hybrid_search env t (some t) req.asset (normalizeAssets req.assets)
        req.sentiment req.is_market_related req.limit st with
    | (.ok results, st2) =>
      ({ trader_name := t, viewpoints := extractViewpoints results,
         error_reason := "", status := 200 }, st2)
    | (.error _, st2) =>
      ({ trader_name := t, viewpoints := [],
         error_reason := "query failed", status := 500 }, st2)



/-! ## Concrete test fixtures

Small concrete stores/environments over which the claims are exercised.
The oracle components are instantiated with simple deterministic behaviour
(term-overlap-free fixed scores, fixed neighbour lists), which is all the
engine observes of them. -/

/-- A document tagged with the assets BTC and ETH. -/
def docBtcEth : Doc := ⟨"t1", "btc eth doc", { gpt_assets := .jlist ["BTC", "ETH"] }⟩

/-- A document tagged with the asset BTC only. -/
def docBtcOnly : Doc := ⟨"t2", "btc doc", { gpt_assets := .jlist ["BTC"] }⟩

/-- Minimal healthy environment: one stored document, a working embedder,
a vector store that returns no neighbours, and a BM25 oracle scoring the
single corpus document 1. -/
def envUnit : Env := {
  store := ⟨[⟨"d1", "fed rate cut", {}⟩]⟩
  encode := fun _ => .ok [1]
  vquery := fun _ _ _ => .ok []
  bm25Scores := fun _ _ => [1] }

/-- Two-trader store for exercising the lexical cache (claim C1). -/
def envC1 : Env := {
  store := ⟨[⟨"d-alice", "alpha doc", { screen_name := "alice" }⟩,
             ⟨"d-bob", "bob doc", { screen_name := "bob" }⟩]⟩
  encode := fun _ => .ok [1]
  vquery := fun _ _ _ => .ok []
  bm25Scores := fun _ _ => [1, 1] }

/-- Environment whose embedder raises (claim C3). -/
def envC3 : Env := {
  store := ⟨[⟨"d1", "fed rate cut", {}⟩]⟩
  encode := fun _ => .error ()
  vquery := fun _ _ _ => .ok []
  bm25Scores := fun _ _ => [1] }

/-- Environment whose vector store raises on every query, filtered or not
(claim C3). -/
def envC3v : Env := {
  store := ⟨[⟨"d1", "fed rate cut", {}⟩]⟩
  encode := fun _ => .ok [1]
  vquery := fun _ _ _ => .error ()
  bm25Scores := fun _ _ => [1] }

/-- Environment where the structured filter matches zero documents, the
substring fallback finds nothing, and the vector store would return one
neighbour (claim C4). -/
def envC4 : Env := {
  store := ⟨[⟨"d1", "alpha doc", { screen_name := "alice" }⟩]⟩
  encode := fun _ => .ok [1]
  vquery := fun _ _ _ => .ok [⟨"dv", 0, "vector doc", {}⟩]
  bm25Scores := fun _ _ => [1] }

/-- Two-document store whose BM25 oracle scores the first document higher,
with an empty vector reply: the fused order is the lexical order
(claim C2). -/
def envC2 : Env := {
  store := ⟨[docBtcOnly, docBtcEth]⟩
  encode := fun _ => .ok [1]
  vquery := fun _ _ _ => .ok []
  bm25Scores := fun _ _ => [2, 1] }

/-- The lexical cache `hybrid_search` builds over `envC2`. -/
def stC2 : BM25State :=
  ⟨[["btc", "doc"], ["btc", "eth", "doc"]], ["t2", "t1"],
   ["btc doc", "btc eth doc"], [docBtcOnly.metadata, docBtcEth.metadata]⟩

/-! ## Theorems -/

/-! ### Stable-sort lemmas -/

theorem insertLe_perm (le : α → α → Bool) (x : α) :
    ∀ l : List α, (insertLe le x l).Perm (x :: l)
  | [] => .refl _
  | y :: ys => by
    unfold insertLe
    split
    · exact .refl _
    · exact .trans (.cons y (insertLe_perm le x ys)) (.swap x y ys)

theorem sortBy_perm (le : α → α → Bool) : ∀ l : List α, (sortBy le l).Perm l
  | [] => .refl _
  | x :: xs => .trans (insertLe_perm le x (sortBy le xs)) (.cons x (sortBy_perm le xs))

theorem insertLe_pairwise (le : α → α → Bool)
    (total : ∀ a b, le a b = true ∨ le b a = true)
    (trans : ∀ a b c, le a b = true → le b c = true → le a c = true)
    (x : α) : ∀ l : List α, l.Pairwise (fun a b => le a b = true) →
      (insertLe le x l).Pairwise (fun a b => le a b = true)
  | [], _ => by simp [insertLe]
  | y :: ys, h => by
    rw [List.pairwise_cons] at h
    unfold insertLe
    split
    · rename_i hxy
      refine List.pairwise_cons.mpr ⟨?_, List.pairwise_cons.mpr h⟩
      intro z hz
      rcases List.mem_cons.mp hz with rfl | hz
      · exact hxy
      · exact trans x y z hxy (h.1 z hz)
    · rename_i hxy
      have hyx : le y x = true := by
        rcases total x y with h' | h'
        · exact absurd h' hxy
        · exact h'
      refine List.pairwise_cons.mpr ⟨?_, insertLe_pairwise le total trans x ys h.2⟩
      intro z hz
      rcases List.mem_cons.mp ((insertLe_perm le x ys).mem_iff.mp hz) with rfl | h2
      · exact hyx
      · exact h.1 z h2

theorem sortBy_pairwise (le : α → α → Bool)
    (total : ∀ a b, le a b = true ∨ le b a = true)
    (trans : ∀ a b c, le a b = true → le b c = true → le a c = true) :
    ∀ l : List α, (sortBy le l).Pairwise (fun a b => le a b = true)
  | [] => by simp [sortBy]
  | x :: xs => insertLe_pairwise le total trans x (sortBy le xs)
      (sortBy_pairwise le total trans xs)

/-- If `x` is a strict maximum of `l` for the Boolean preorder `le`
(everything else is `le`-after `x` and never `le`-before it), the stable sort
puts `x` first. -/
theorem sortBy_head_of_strict_max (le : α → α → Bool)
    (total : ∀ a b, le a b = true ∨ le b a = true)
    (trans : ∀ a b c, le a b = true → le b c = true → le a c = true)
    (l : List α) (x : α) (hx : x ∈ l)
    (hmax : ∀ y ∈ l, y ≠ x → le y x = false) :
    (sortBy le l).head? = some x := by
  have hperm := sortBy_perm le l
  have hpw := sortBy_pairwise le total trans l
  have hxs : x ∈ sortBy le l := hperm.mem_iff.mpr hx
  cases hs : sortBy le l with
  | nil => rw [hs] at hxs; cases hxs
  | cons h t =>
    rw [hs] at hxs hpw hperm
    rcases List.mem_cons.mp hxs with rfl | hxt
    · rfl
    · by_cases hhx : h = x
      · subst hhx; rfl
      · have hhl : h ∈ l := hperm.mem_iff.mp (List.mem_cons_self h t)
        have : le h x = false := hmax h hhl hhx
        have : le h x = true := (List.pairwise_cons.mp hpw).1 x hxt
        simp_all

/-! ### Claim C10 -/

/-- C10: for every input list and every asset-filter argument, the output of
`filter_by_asset` is a subsequence of its input — every returned element
occurs in the input, relative order is preserved, and nothing is added or
duplicated. -/
theorem filter_by_asset_sublist (results : List Doc) (asset : Option String)
    (assets : Option (List String)) :
    (filter_by_asset results asset assets).Sublist results := by
  unfold filter_by_asset
  split
  · exact List.Sublist.refl _
  · dsimp only
    split
    · exact List.Sublist.refl _
    · split
      · exact List.Sublist.refl _
      · exact List.filter_sublist _

/-! ### Claim C6 -/

/-- C6: `filter_by_asset` keeps a result iff its parsed asset list
intersects, case-insensitively, the requested target set (OR across multiple
requested tickers); the disable-sentinel "blur" as the single asset, or
among the requested assets, or both arguments unset, all return the input
unchanged. -/
theorem filter_by_asset_spec :
    (∀ (results : List Doc) (a : String) (assets : Option (List String)),
        strLower a = "blur" → a ≠ "" →
        filter_by_asset results (some a) assets = results)
    ∧
    (∀ (results : List Doc) (asset : Option String) (l : List String),
        (∃ x ∈ l, strLower x = "blur") →
        filter_by_asset results asset (some l) = results)
    ∧
    (∀ results : List Doc, filter_by_asset results none none = results)
    ∧
    (∀ (results : List Doc) (l : List String) (r : Doc) (ds : List String),
        l ≠ [] → (∀ x ∈ l, x ≠ "" ∧ strLower x ≠ "blur") →
        r.metadata.gpt_assets = .jlist ds →
        (r ∈ filter_by_asset results none (some l) ↔
          r ∈ results ∧ ∃ x ∈ l, ∃ d ∈ ds, strUpper x = strUpper d))
    ∧
    (∀ (results : List Doc) (a : String) (r : Doc) (ds : List String),
        a ≠ "" → strLower a ≠ "blur" →
        r.metadata.gpt_assets = .jlist ds →
        (r ∈ filter_by_asset results (some a) none ↔
          r ∈ results ∧ ∃ d ∈ ds, strUpper a = strUpper d)) := by
  refine ⟨?_, ?_, ?_, ?_, ?_⟩
  · intro results a assets hblur hne
    unfold filter_by_asset
    rw [if_pos]
    simp [optStrTruthy, hblur, hne]
  · intro results asset l hblur
    unfold filter_by_asset
    split
    · rfl
    · dsimp only
      obtain ⟨x, hx, hxblur⟩ := hblur
      have hne : l ≠ [] := by rintro rfl; cases hx
      have h1 : optListTruthy (some l) = true := by
        simp [optListTruthy, List.isEmpty_iff, hne]
      have h2 : l.any (fun a => strLower a == "blur") = true := by
        simp only [List.any_eq_true]
        exact ⟨x, hx, by simp [hxblur]⟩
      simp only [Option.getD_some]
      rw [if_pos h2, if_pos h1]
  · intro results
    unfold filter_by_asset
    simp [optStrTruthy, optListTruthy]
  · intro results l r ds hne hl hr
    unfold filter_by_asset
    have h1 : optListTruthy (some l) = true := by
      simp [optListTruthy, List.isEmpty_iff, hne]
    have h2 : l.any (fun a => strLower a == "blur") = false := by
      simp only [List.any_eq_false]
      intro x hx
      simp [(hl x hx).2]
    have h3 : l.filter (fun a => a != "" && strLower a != "blur") = l := by
      apply List.filter_eq_self.mpr
      intro x hx
      simp [(hl x hx).1, (hl x hx).2]
    rw [if_neg (by simp [optStrTruthy])]
    dsimp only
    simp only [Option.getD_some]
    rw [if_pos h1, if_neg (by simp [h2]), h3]
    have h4 : (l.map strUpper).isEmpty = false := by
      simp [List.isEmpty_iff, hne]
    dsimp only
    rw [if_neg (by simp [h4])]
    rw [List.mem_filter]
    constructor
    · rintro ⟨hmem, hkeep⟩
      refine ⟨hmem, ?_⟩
      unfold assetKeep at hkeep
      rw [hr] at hkeep
      simp only [List.any_eq_true, List.mem_map, List.contains_iff_exists_mem_beq] at hkeep
      obtain ⟨t, ⟨x, hx, rfl⟩, u, hu, hbeq⟩ := hkeep
      obtain ⟨d, hd, rfl⟩ := hu
      exact ⟨x, hx, d, hd, beq_iff_eq.mp hbeq⟩
    · rintro ⟨hmem, x, hx, d, hd, heq⟩
      refine ⟨hmem, ?_⟩
      unfold assetKeep
      rw [hr]
      simp only [List.any_eq_true, List.mem_map, List.contains_iff_exists_mem_beq]
      exact ⟨strUpper x, ⟨x, hx, rfl⟩, strUpper d, ⟨d, hd, rfl⟩, by simp [heq]⟩
  · intro results a r ds hne hblur hr
    unfold filter_by_asset
    rw [if_neg (by simp [optStrTruthy, hne, hblur])]
    dsimp only
    simp only [Option.getD_some, if_neg (by simp [optListTruthy] : ¬optListTruthy (none : Option (List String)) = true),
      if_pos (by simp [optStrTruthy, hne] : optStrTruthy (some a) = true)]
    rw [if_neg (by simp)]
    rw [List.mem_filter]
    constructor
    · rintro ⟨hmem, hkeep⟩
      refine ⟨hmem, ?_⟩
      unfold assetKeep at hkeep
      rw [hr] at hkeep
      simp only [List.any_eq_true, List.mem_singleton, List.contains_iff_exists_mem_beq] at hkeep
      obtain ⟨t, rfl, u, hu, hbeq⟩ := hkeep
      obtain ⟨d, hd, rfl⟩ := List.mem_map.mp hu
      exact ⟨d, hd, beq_iff_eq.mp hbeq⟩
    · rintro ⟨hmem, d, hd, heq⟩
      refine ⟨hmem, ?_⟩
      unfold assetKeep
      rw [hr]
      simp only [List.any_eq_true, List.mem_singleton, List.contains_iff_exists_mem_beq]
      exact ⟨strUpper a, rfl, strUpper d, List.mem_map.mpr ⟨d, hd, rfl⟩, by simp [heq]⟩

/-- Witness for C6: the spec scenario — a document tagged BTC and ETH is
kept when filtering for ETH or SOL. -/
theorem filter_by_asset_spec_witness :
    docBtcEth ∈ filter_by_asset [docBtcEth] none (some ["ETH", "SOL"]) ↔
      docBtcEth ∈ [docBtcEth] ∧
        ∃ x ∈ ["ETH", "SOL"], ∃ d ∈ ["BTC", "ETH"], strUpper x = strUpper d :=
  filter_by_asset_spec.2.2.2.1 [docBtcEth] ["ETH", "SOL"] docBtcEth ["BTC", "ETH"]
    (by decide) (by decide) rfl

/-! ### Claim C1 -/

/-- C1 (claim refuted — code bug): the builder computes a cache key from the
structured filter but never stores or compares it, so with the identical
non-empty filter two consecutive calls fetch from the store once **each**
(the claim demands a single fetch across both), and a subsequent no-filter
call is answered from the cache that was populated for the `alice` filter —
the returned index covers only `d-alice` although the unfiltered corpus is
`[d-alice, d-bob]`, i.e. the "no filter" key is not distinct in the
implementation. -/
theorem build_bm25_index_cache_bug :
    ((build_bm25_index envC1 (some "alice") (some [.screenName "alice"]) none).2.2 = 1
      ∧ (build_bm25_index envC1 (some "alice") (some [.screenName "alice"])
          (build_bm25_index envC1 (some "alice") (some [.screenName "alice"]) none).2.1).2.2
          = 1)
    ∧ ((build_bm25_index envC1 none none
          (build_bm25_index envC1 (some "alice") (some [.screenName "alice"]) none).2.1).1
        = some ⟨[["alpha", "doc"]], ["d-alice"], ["alpha doc"],
                [{ screen_name := "alice" }]⟩
      ∧ envC1.store.docs.map (·.id) = ["d-alice", "d-bob"]) := by decide

/-! ### Claim C4 -/

/-- C4 (amended): when the lexical fetch — structured filter plus substring
fallback — yields zero documents, `hybrid_search` returns the empty list
immediately; the vector path is never consulted, so the fused result is
empty rather than the vector ranking. -/
theorem hybrid_search_no_lexical_returns_empty
    (env : Env) (query_text : String) (trader_name asset : Option String)
    (assets : Option (List String)) (sentiment : Option String)
    (is_market_related : Option Bool) (limit : Nat) (st : Option BM25State)
    (h : (build_bm25_index env trader_name
        (build_where_clause trader_name none sentiment is_market_related) st).1 = none) :
    (hybrid_search env query_text trader_name asset assets sentiment
        is_market_related limit st).1 = .ok [] := by
  unfold hybrid_search
  dsimp only
  rcases h2 : build_bm25_index env trader_name
      (build_where_clause trader_name none sentiment is_market_related) st with ⟨res, st2, f⟩
  rw [h2] at h
  dsimp only at h
  subst h
  rfl

/-- Counterexample for C4 as stated: the filter `screen_name = zed` matches
nothing, the fallback substring match finds nothing, and the vector store
would return the neighbour `dv` — yet the query answers the empty list, not
the vector ranking `[dv]`. -/
theorem hybrid_search_C4_cex :
    (hybrid_search envC4 "q" (some "zed") none none none none 5 none).1 = .ok []
    ∧ (envC4.vquery [1] (some [.screenName "zed"]) 10).map (List.map VHit.id)
        = .ok ["dv"] := by decide

/-- Witness for the amended C4 theorem at a concrete input. -/
theorem hybrid_search_no_lexical_witness :
    (hybrid_search envC4 "q2" (some "zed") none none none none 3 none).1 = .ok [] :=
  hybrid_search_no_lexical_returns_empty envC4 "q2" (some "zed") none none none none 3 none
    (by decide)

/-! ### Claim C3 -/

/-- C3 (amended): a failing embedder call, or a vector-store query that fails
both filtered and on the unfiltered retry, propagates out of `hybrid_search`
as an exception (there is no degradation to the surviving lexical path); the
`/query` route then catches it and answers an empty viewpoint list with a
non-empty error reason — not the lexical-only ranking. -/
theorem hybrid_search_failure_propagation :
    (∀ (env : Env) (q : String) (tr a1 : Option String) (a2 : Option (List String))
        (se : Option String) (mr : Option Bool) (lim : Nat) (st : Option BM25State)
        (bm : BM25State),
        (build_bm25_index env tr (build_where_clause tr none se mr) st).1 = some bm →
        env.encode q = .error () →
        (hybrid_search env q tr a1 a2 se mr lim st).1 = .error ())
    ∧ (∀ (env : Env) (q : String) (tr a1 : Option String) (a2 : Option (List String))
        (se : Option String) (mr : Option Bool) (lim : Nat) (st : Option BM25State)
        (bm : BM25State) (emb : List ℚ),
        (build_bm25_index env tr (build_where_clause tr none se mr) st).1 = some bm →
        env.encode q = .ok emb →
        env.vquery emb (build_where_clause tr none se mr) (lim * 2) = .error () →
        env.vquery emb none (lim * 2) = .error () →
        (hybrid_search env q tr a1 a2 se mr lim st).1 = .error ())
    ∧ (∀ (env : Env) (req : QueryRequest) (st : Option BM25State),
        (hybrid_search env req.query_text req.trader_name req.asset
            (normalizeAssets req.assets) req.sentiment req.is_market_related
            req.limit st).1 = .error () →
        req.query_text ≠ "" →
        (query env req st).1.viewpoints = [] ∧ (query env req st).1.error_reason ≠ "") := by
  refine ⟨?_, ?_, ?_⟩
  · intro env q tr a1 a2 se mr lim st bm hsome henc
    unfold hybrid_search
    dsimp only
    rcases h2 : build_bm25_index env tr (build_where_clause tr none se mr) st
      with ⟨res, st2, f⟩
    rw [h2] at hsome
    dsimp only at hsome
    subst hsome
    dsimp only
    rw [henc]
  · intro env q tr a1 a2 se mr lim st bm emb hsome henc hv1 hv2
    unfold hybrid_search
    dsimp only
    rcases h2 : build_bm25_index env tr (build_where_clause tr none se mr) st
      with ⟨res, st2, f⟩
    rw [h2] at hsome
    dsimp only at hsome
    subst hsome
    dsimp only
    rw [henc]
    dsimp only
    rw [hv1]
    dsimp only
    rw [hv2]
  · intro env req st herr hq
    unfold query
    rw [if_neg hq]
    rcases hh : hybrid_search env req.query_text req.trader_name req.asset
        (normalizeAssets req.assets) req.sentiment req.is_market_related
        req.limit st with ⟨r, st2⟩
    rw [hh] at herr
    dsimp only at herr
    subst herr
    exact ⟨rfl, by simp⟩

/-- Counterexample for C3 as stated: with a raising embedder (`envC3`) the
exception escapes `hybrid_search` and the route returns no viewpoints plus
an error reason; the same holds when the vector store fails even on the
unfiltered retry (`envC3v`); yet the surviving lexical path alone would have
produced the non-empty ranking `[d1]` (shown by `envUnit`, which differs
only in its healthy collaborators). -/
theorem hybrid_search_C3_cex :
    (hybrid_search envC3 "fed" none none none none none 5 none).1 = .error ()
    ∧ (query envC3 { query_text := "fed" } none).1.viewpoints = []
    ∧ (query envC3 { query_text := "fed" } none).1.error_reason ≠ ""
    ∧ (hybrid_search envC3v "fed" none none none none none 5 none).1 = .error ()
    ∧ (hybrid_search envUnit "fed" none none none none none 5 none).1
        = .ok [⟨"d1", "fed rate cut", {}⟩] := by decide

/-- Witness for the amended C3 theorem at a concrete input. -/
theorem hybrid_search_failure_propagation_witness :
    (hybrid_search envC3 "macro" none none none none none 4 none).1 = .error () :=
  hybrid_search_failure_propagation.1 envC3 "macro" none none none none none 4 none
    ⟨[["fed", "rate", "cut"]], ["d1"], ["fed rate cut"], [{}]⟩ (by decide) rfl

/-! ### Claim C7 -/

/-- Helper: a successful `hybrid_search` returns at most `limit` results
(the final `[:limit]` truncation). -/
theorem hybrid_search_length_le (env : Env) (q : String) (tr a1 : Option String)
    (a2 : Option (List String)) (se : Option String) (mr : Option Bool)
    (lim : Nat) (st : Option BM25State) (out : List Doc)
    (h : (hybrid_search env q tr a1 a2 se mr lim st).1 = .ok out) :
    out.length ≤ lim := by
  unfold hybrid_search at h
  dsimp only at h
  rcases h2 : build_bm25_index env tr (build_where_clause tr none se mr) st
    with ⟨res, st2, f⟩
  rw [h2] at h
  cases res with
  | none =>
    dsimp only at h
    injection h with h
    subst h
    simp
  | some bm =>
    dsimp only at h
    cases henc : env.encode q with
    | error e => rw [henc] at h; exact absurd h (by simp)
    | ok emb =>
      rw [henc] at h
      dsimp only at h
      split at h
      · exact absurd h (by simp)
      · injection h with h
        subst h
        exact List.length_take_le ..

/-- C7: for every non-empty query text and positive limit, the `/query`
route answers (the embedding is total: every exception is converted into an
error response by the surrounding try/except) with at most `limit`
viewpoints. -/
theorem query_result_bounded (env : Env) (req : QueryRequest) (st : Option BM25State)
    (hq : req.query_text ≠ "") (_hl : 0 < req.limit) :
    ((query env req st).1.viewpoints).length ≤ req.limit := by
  unfold query
  rw [if_neg hq]
  rcases hh : hybrid_search env req.query_text req.trader_name req.asset
      (normalizeAssets req.assets) req.sentiment req.is_market_related
      req.limit st with ⟨r, st2⟩
  cases r with
  | ok results =>
    dsimp only
    refine le_trans (List.length_filterMap_le _ _) ?_
    exact hybrid_search_length_le env req.query_text req.trader_name req.asset
      (normalizeAssets req.assets) req.sentiment req.is_market_related
      req.limit st results (by rw [hh])
  | error e => dsimp only; simp

/-- Witness for C7 at a concrete input. -/
theorem query_result_bounded_witness :
    ((query envUnit { query_text := "fed" } none).1.viewpoints).length ≤ 5 :=
  query_result_bounded envUnit { query_text := "fed" } none (by decide) (by decide)

/-! ### Claim C9 -/

theorem length_mk (l : List Char) : (String.mk l).length = l.length := rfl

/-- Helper: the truncation never exceeds 500 characters. -/
theorem truncateViewpoint_length_le (s : String) :
    (truncateViewpoint s).length ≤ 500 := by
  unfold truncateViewpoint
  split
  · rename_i h
    rw [length_mk, List.length_take]
    omega
  · rename_i h
    rw [String.length_append, length_mk, List.length_take]
    have h3 : ("..." : String).length = 3 := rfl
    rw [h3]
    omega

/-- Helper: every extracted viewpoint is the truncation of some returned
document. -/
theorem mem_extractViewpoints {results : List Doc} {v : String}
    (h : v ∈ extractViewpoints results) :
    ∃ r ∈ results, v = truncateViewpoint r.document := by
  unfold extractViewpoints at h
  obtain ⟨r, hr, hf⟩ := List.mem_filterMap.mp h
  by_cases hd : (r.document != "") = true
  · rw [if_pos hd] at hf
    exact ⟨r, hr, (Option.some_inj.mp hf).symm⟩
  · rw [if_neg hd] at hf
    cases hf

/-- C9: every viewpoint string in a successful `/query` or `/query_by_name`
response has length at most 500; a document of length at most 500 passes
verbatim, and a longer one becomes its first 497 characters followed by
"...". -/
theorem viewpoints_length_bounded :
    (∀ (env : Env) (req : QueryRequest) (st : Option BM25State) (v : String),
        v ∈ (query env req st).1.viewpoints → v.length ≤ 500)
    ∧ (∀ (env : Env) (req : QueryRequest) (st : Option BM25State) (v : String),
        v ∈ (query_by_name env req st).1.viewpoints → v.length ≤ 500)
    ∧ (∀ s : String, s.length ≤ 500 → truncateViewpoint s = s)
    ∧ (∀ s : String, 500 < s.length →
        truncateViewpoint s = (⟨s.data.take 497⟩ : String) ++ "...") := by
  refine ⟨?_, ?_, ?_, ?_⟩
  · intro env req st v hv
    unfold query at hv
    by_cases hq : req.query_text = ""
    · rw [if_pos hq] at hv
      simp at hv
    · rw [if_neg hq] at hv
      rcases hh : hybrid_search env req.query_text req.trader_name req.asset
          (normalizeAssets req.assets) req.sentiment req.is_market_related
          req.limit st with ⟨r, st2⟩
      rw [hh] at hv
      cases r with
      | ok results =>
        dsimp only at hv
        obtain ⟨rr, _, rfl⟩ := mem_extractViewpoints hv
        exact truncateViewpoint_length_le _
      | error e =>
        dsimp only at hv
        simp at hv
  · intro env req st v hv
    unfold query_by_name at hv
    by_cases hq : req.trader_name.getD "" = ""
    · rw [if_pos hq] at hv
      simp at hv
    · rw [if_neg hq] at hv
      rcases hh : hybrid_search env (req.trader_name.getD "")
          (some (req.trader_name.getD "")) req.asset (normalizeAssets req.assets)
          req.sentiment req.is_market_related req.limit st with ⟨r, st2⟩
      rw [hh] at hv
      cases r with
      | ok results =>
        dsimp only at hv
        obtain ⟨rr, _, rfl⟩ := mem_extractViewpoints hv
        exact truncateViewpoint_length_le _
      | error e =>
        dsimp only at hv
        simp at hv
  · intro s hs
    unfold truncateViewpoint
    rw [if_pos hs]
    have : s.data.length ≤ 500 := hs
    rw [List.take_of_length_le this]
  · intro s hs
    unfold truncateViewpoint
    rw [if_neg (by omega)]

/-- Witness for C9 at a concrete response. -/
theorem viewpoints_length_bounded_witness : ("fed rate cut" : String).length ≤ 500 :=
  viewpoints_length_bounded.1 envUnit { query_text := "fed" } none "fed rate cut"
    (by decide)

/-! ### Claim C2 -/

/-- Helper: single-asset blur sentinel leaves the list unchanged. -/
theorem filter_by_asset_blur_asset (r : List Doc) (a1 : Option String)
    (a2 : Option (List String))
    (h : (optStrTruthy a1 && strLower (a1.getD "") == "blur") = true) :
    filter_by_asset r a1 a2 = r := by
  unfold filter_by_asset
  rw [if_pos h]

/-- Helper: a blur entry among the requested assets leaves the list
unchanged. -/
theorem filter_by_asset_blur_assets (r : List Doc) (a1 : Option String)
    (a2 : Option (List String))
    (h : (optListTruthy a2 && (a2.getD []).any (fun a => strLower a == "blur")) = true) :
    filter_by_asset r a1 a2 = r := by
  unfold filter_by_asset
  split
  · rfl
  · dsimp only
    have h2 := h
    simp only [Bool.and_eq_true] at h2
    obtain ⟨hT, hA⟩ := h2
    rw [if_pos hT, if_pos hA]

/-- Helper: the empty list is fixed by the filter. -/
theorem filter_by_asset_nil (a1 : Option String) (a2 : Option (List String)) :
    filter_by_asset [] a1 a2 = [] := by
  unfold filter_by_asset
  split
  · rfl
  · dsimp only
    split
    · rfl
    · split
      · rfl
      · rfl

/-- Helper: with both arguments falsy the list is unchanged. -/
theorem filter_by_asset_falsy (r : List Doc) (a1 : Option String)
    (a2 : Option (List String)) (h1 : optStrTruthy a1 = false)
    (h2 : optListTruthy a2 = false) :
    filter_by_asset r a1 a2 = r := by
  unfold filter_by_asset
  rw [if_neg (by simp [h1])]
  dsimp only
  rw [if_neg (by simp [h2]), if_neg (by simp [h1])]

/-- Helper: the engine-side disable conditions imply the filter is the
identity. -/
theorem filter_by_asset_of_disabled (r : List Doc) (a1 : Option String)
    (a2 : Option (List String))
    (h : (shouldFilterAsset a1 a2 && (optStrTruthy a1 || optListTruthy a2)) = false) :
    filter_by_asset r a1 a2 = r := by
  by_cases hb1 : (optStrTruthy a1 && strLower (a1.getD "") == "blur") = true
  · exact filter_by_asset_blur_asset r a1 a2 hb1
  · by_cases hb2 : (optListTruthy a2 &&
        (a2.getD []).any (fun a => strLower a == "blur")) = true
    · exact filter_by_asset_blur_assets r a1 a2 hb2
    · have hs : shouldFilterAsset a1 a2 = true := by
        unfold shouldFilterAsset
        rw [if_neg hb1, if_neg hb2]
      rw [hs, Bool.true_and] at h
      rcases Bool.or_eq_false_iff.mp h with ⟨h1, h2⟩
      exact filter_by_asset_falsy r a1 a2 h1 h2

/-- Helper: post-filtering the whole fused list or its length-bounded
truncation makes no difference once the list already fits the limit. -/
theorem postfilter_take_eq (P : List Doc) (a1 : Option String)
    (a2 : Option (List String)) (lim : Nat) (hP : P.length ≤ lim) :
    ((if shouldFilterAsset a1 a2 && (optStrTruthy a1 || optListTruthy a2)
      then filter_by_asset P a1 a2 else P).take lim)
    = ((filter_by_asset (P.take lim) a1 a2).take lim) := by
  rw [List.take_of_length_le hP]
  by_cases hc : (shouldFilterAsset a1 a2 && (optStrTruthy a1 || optListTruthy a2)) = true
  · rw [if_pos hc]
  · rw [if_neg hc]
    rw [filter_by_asset_of_disabled P a1 a2 (Bool.of_not_eq_true hc)]

/-- Helper: a query with asset arguments equals the no-asset query
post-filtered by `filter_by_asset` and re-truncated — the post-filter only
ever sees the fused list already truncated to `limit`. -/
theorem hybrid_search_asset_factor
    (env : Env) (q : String) (tr a1 : Option String) (a2 : Option (List String))
    (se : Option String) (mr : Option Bool) (lim : Nat) (st : Option BM25State) :
    (hybrid_search env q tr a1 a2 se mr lim st).1 =
      ((hybrid_search env q tr none none se mr lim st).1).map
        (fun r => (filter_by_asset r a1 a2).take lim) := by
  unfold hybrid_search
  dsimp only
  rcases h2 : build_bm25_index env tr (build_where_clause tr none se mr) st
    with ⟨res, st2, f⟩
  cases res with
  | none =>
    dsimp only [Except.map]
    rw [filter_by_asset_nil]
    simp
  | some bm =>
    dsimp only
    cases henc : env.encode q with
    | error e => rfl
    | ok emb =>
      dsimp only
      cases hvr : (match env.vquery emb (build_where_clause tr none se mr) (lim * 2) with
                   | Except.ok r => Except.ok r
                   | Except.error _ => env.vquery emb none (lim * 2)) with
      | error e => rfl
      | ok vhits =>
        dsimp only [Except.map]
        rw [if_neg (by simp [optStrTruthy, optListTruthy] :
          ¬((shouldFilterAsset none none &&
            (optStrTruthy (none : Option String) ||
              optListTruthy (none : Option (List String)))) = true))]
        refine congrArg Except.ok ?_
        exact postfilter_take_eq _ a1 a2 lim
          (le_trans (List.length_filterMap_le _ _) (List.length_take_le ..))

/-- C2 (amended): the asset post-filter runs after fusion but only on the
fused list already truncated to the requested `limit`: a query with asset
arguments answers exactly the no-asset query post-filtered by
`filter_by_asset` (and re-truncated).  Hence every returned document passes
the filter and sits in the fused top `limit`, while a passing document whose
fused rank exceeds `limit` is dropped — the response can shrink below
`limit` and is not refilled. -/
theorem hybrid_search_filter_after_truncation
    (env : Env) (q : String) (tr a1 : Option String) (a2 : Option (List String))
    (se : Option String) (mr : Option Bool) (lim : Nat) (st : Option BM25State) :
    (hybrid_search env q tr a1 a2 se mr lim st).1 =
      ((hybrid_search env q tr none none se mr lim st).1).map
        (fun r => (filter_by_asset r a1 a2).take lim) :=
  hybrid_search_asset_factor env q tr a1 a2 se mr lim st

/-- Helper: concrete RRF fusion over `envC2`: the lexical-only ranked list
`[t2 (rank 1), t1 (rank 2)]` fuses to `[t2, t1]`. -/
theorem envC2_merge_eval :
    rrf_merge [] [("t2", (2 : ℚ)), ("t1", 1)] 60 = ["t2", "t1"] := by
  have hscore : rrfScore [] [("t2", (2 : ℚ)), ("t1", 1)] 60 "t1" ≤
      rrfScore [] [("t2", (2 : ℚ)), ("t1", 1)] 60 "t2" := by
    unfold rrfScore
    rw [show rankOf ([] : List (String × ℚ)) "t1" = none from rfl,
        show rankOf ([] : List (String × ℚ)) "t2" = none from rfl,
        show rankOf [("t2", (2 : ℚ)), ("t1", 1)] "t1" = some 2 from by decide,
        show rankOf [("t2", (2 : ℚ)), ("t1", 1)] "t2" = some 1 from by decide]
    norm_num [rrfContribution]
  unfold rrf_merge
  dsimp only
  rw [show dedupFirst (([] : List (String × ℚ)).map Prod.fst ++
      [("t2", (2 : ℚ)), ("t1", 1)].map Prod.fst) = ["t2", "t1"] from by decide]
  simp only [sortBy, insertLe]
  rw [decide_eq_true hscore]
  rfl

/-- Helper: concrete evaluation of the no-asset query over `envC2`: the
fused top-1 is `t2` (= `docBtcOnly`). -/
theorem envC2_noasset_eval :
    (hybrid_search envC2 "q" none none none none none 1 none).1 = .ok [docBtcOnly] := by
  unfold hybrid_search
  dsimp only
  rw [show build_bm25_index envC2 none (build_where_clause none none none none) none =
      (some stC2, some stC2, 1) from by decide]
  dsimp only
  rw [show envC2.encode "q" = .ok [1] from rfl]
  dsimp only
  rw [show (match envC2.vquery [1] (build_where_clause none none none none) (1 * 2) with
        | Except.ok r => Except.ok r
        | Except.error _ => envC2.vquery [1] none (1 * 2)) = Except.ok [] from rfl]
  dsimp only
  rw [show List.take (1 * 2) (sortBy (fun a b => decide (b.2 ≤ a.2))
      (List.filter (fun p => decide (0 < p.2))
        (stC2.ids.zip (envC2.bm25Scores stC2.tokenizedDocs (tokenize "q")))))
      = [("t2", (2 : ℚ)), ("t1", 1)] from by decide]
  rw [show List.map (fun h : VHit => (h.id, 1 / (1 + h.distance))) ([] : List VHit)
      = ([] : List (String × ℚ)) from rfl]
  rw [envC2_merge_eval]
  decide

/-- Counterexample for C2 as stated: over `envC2` with `limit = 1` and asset
filter ETH, the fused list is `[t2, t1]`; `t1` (`docBtcEth`) passes the
asset filter and is the sole survivor, so under the claim (filter before
truncation) it would be returned — but the engine truncates to the top 1
(`t2`) first, filters it away, and answers the empty list. -/
theorem hybrid_search_C2_cex :
    (hybrid_search envC2 "q" none (some "ETH") none none none 1 none).1 = .ok []
    ∧ rrf_merge [] [("t2", (2 : ℚ)), ("t1", 1)] 60 = ["t2", "t1"]
    ∧ filter_by_asset [docBtcOnly, docBtcEth] (some "ETH") none = [docBtcEth] := by
  refine ⟨?_, envC2_merge_eval, by decide⟩
  rw [hybrid_search_asset_factor envC2 "q" none (some "ETH") none none none 1 none]
  rw [envC2_noasset_eval]
  decide

/-! ### Claim C5 -/

theorem mem_dedupFirst {y : String} : ∀ {l : List String}, y ∈ dedupFirst l ↔ y ∈ l
  | [] => Iff.rfl
  | x :: xs => by
    by_cases h : y = x
    · simp [dedupFirst, h]
    · simp [dedupFirst, h, List.mem_filter, mem_dedupFirst (l := xs)]

theorem lastIdx_mem {id : String} :
    ∀ {xs : List String} {j : Nat}, lastIdx id xs = some j → id ∈ xs := by
  intro xs
  induction xs with
  | nil => intro j h; simp [lastIdx] at h
  | cons d rest ih =>
    intro j h
    unfold lastIdx at h
    cases hrest : lastIdx id rest with
    | some j2 => exact List.mem_cons_of_mem d (ih hrest)
    | none =>
      rw [hrest] at h
      dsimp only at h
      by_cases hd : (d == id) = true
      · have : d = id := beq_iff_eq.mp hd
        subst this
        exact List.mem_cons_self d rest
      · rw [if_neg hd] at h
        cases h

theorem lastIdx_zero_head {id : String} :
    ∀ {xs : List String}, lastIdx id xs = some 0 → xs.head? = some id := by
  intro xs
  cases xs with
  | nil => intro h; simp [lastIdx] at h
  | cons d rest =>
    intro h
    unfold lastIdx at h
    cases hrest : lastIdx id rest with
    | some j2 => rw [hrest] at h; dsimp only at h; cases h
    | none =>
      rw [hrest] at h
      dsimp only at h
      by_cases hd : (d == id) = true
      · have : d = id := beq_iff_eq.mp hd
        subst this
        rfl
      · rw [if_neg hd] at h
        cases h

theorem rankOf_one_head {xs : List (String × ℚ)} {id : String}
    (h : rankOf xs id = some 1) : (xs.map Prod.fst).head? = some id := by
  unfold rankOf at h
  cases hl : lastIdx id (xs.map Prod.fst) with
  | none => rw [hl] at h; cases h
  | some j =>
    rw [hl] at h
    have h2 : j + 1 = 1 := Option.some_inj.mp h
    have : j = 0 := by omega
    subst this
    exact lastIdx_zero_head hl

theorem rank1_unique {xs : List (String × ℚ)} {a b : String}
    (ha : rankOf xs a = some 1) (hb : rankOf xs b = some 1) : a = b := by
  have h1 := rankOf_one_head ha
  have h2 := rankOf_one_head hb
  rw [h1] at h2
  exact Option.some_inj.mp h2

theorem rankOf_mem {xs : List (String × ℚ)} {id : String} {r : Nat}
    (h : rankOf xs id = some r) : id ∈ xs.map Prod.fst := by
  unfold rankOf at h
  cases hl : lastIdx id (xs.map Prod.fst) with
  | none => rw [hl] at h; cases h
  | some j => exact lastIdx_mem hl

theorem rankOf_pos {xs : List (String × ℚ)} {id : String} {r : Nat}
    (h : rankOf xs id = some r) : 1 ≤ r := by
  unfold rankOf at h
  cases hl : lastIdx id (xs.map Prod.fst) with
  | none => rw [hl] at h; cases h
  | some j =>
    rw [hl] at h
    have h2 : j + 1 = r := Option.some_inj.mp h
    omega

theorem rrfContribution_one (k : ℤ) :
    rrfContribution k (some 1) = 1 / ((k : ℚ) + 1) := by
  unfold rrfContribution
  norm_num

theorem rrfContribution_rank_le (k : ℤ) (hk : 0 < k) {r : Nat} (hr : 2 ≤ r) :
    rrfContribution k (some r) ≤ 1 / ((k : ℚ) + 2) := by
  have hkq : (0 : ℚ) < (k : ℚ) := by exact_mod_cast hk
  unfold rrfContribution
  apply one_div_le_one_div_of_le (by linarith)
  have : (2 : ℚ) ≤ (r : ℚ) := by exact_mod_cast hr
  linarith

/-- Helper: with the rank-1 slot of a list taken by `A`, any other id
contributes at most `1 / (k + 2)` from that list. -/
theorem rrfContribution_other_le (k : ℤ) (hk : 0 < k)
    (xs : List (String × ℚ)) (A y : String)
    (hA : rankOf xs A = some 1) (hy : y ≠ A) :
    rrfContribution k (rankOf xs y) ≤ 1 / ((k : ℚ) + 2) := by
  have hkq : (0 : ℚ) < (k : ℚ) := by exact_mod_cast hk
  cases h : rankOf xs y with
  | none =>
    unfold rrfContribution
    positivity
  | some r =>
    have h1 : 1 ≤ r := rankOf_pos h
    have h2 : r ≠ 1 := by
      rintro rfl
      exact hy (rank1_unique h hA)
    exact rrfContribution_rank_le k hk (by omega)

/-- C5: for any `k > 0`, a document sitting at rank 1 of both ranked lists
collects the fused score `2 / (k + 1)`, strictly above the `1 / (k + 1)`
collected by any document that is at rank 1 in exactly one (pair of) lists
and absent from the other; moreover such a doubly-first document is placed
first in the fused output of `rrf_merge` (within one call the two
hypotheses cannot hold of distinct documents at once — each list has one
rank-1 slot — so the score comparison ranges over two instantiations). -/
theorem rrf_merge_rank1_dominance
    (k : ℤ) (hk : 0 < k)
    (v l : List (String × ℚ)) (A : String)
    (hv : rankOf v A = some 1) (hl : rankOf l A = some 1)
    (w u : List (String × ℚ)) (B : String)
    (hB : (rankOf w B = some 1 ∧ rankOf u B = none) ∨
          (rankOf w B = none ∧ rankOf u B = some 1)) :
    rrfScore w u k B < rrfScore v l k A ∧ (rrf_merge v l k).head? = some A := by
  have hkq : (0 : ℚ) < (k : ℚ) := by exact_mod_cast hk
  have hk1 : (0 : ℚ) < (k : ℚ) + 1 := by linarith
  have hA : rrfScore v l k A = 1 / ((k : ℚ) + 1) + 1 / ((k : ℚ) + 1) := by
    unfold rrfScore
    rw [hv, hl, rrfContribution_one]
  have hBs : rrfScore w u k B = 1 / ((k : ℚ) + 1) := by
    rcases hB with ⟨h1, h2⟩ | ⟨h1, h2⟩ <;>
      · unfold rrfScore
        rw [h1, h2, rrfContribution_one]
        simp [rrfContribution]
  have h12 : 1 / ((k : ℚ) + 2) < 1 / ((k : ℚ) + 1) :=
    one_div_lt_one_div_of_lt hk1 (by linarith)
  constructor
  · rw [hA, hBs]
    have := one_div_pos.mpr hk1
    linarith
  · unfold rrf_merge
    dsimp only
    apply sortBy_head_of_strict_max
    · intro a b
      rcases le_total (rrfScore v l k b) (rrfScore v l k a) with h | h
      · exact Or.inl (decide_eq_true h)
      · exact Or.inr (decide_eq_true h)
    · intro a b c hab hbc
      exact decide_eq_true (le_trans (of_decide_eq_true hbc) (of_decide_eq_true hab))
    · exact mem_dedupFirst.mpr (List.mem_append.mpr (Or.inl (rankOf_mem hv)))
    · intro y hy hne
      apply decide_eq_false
      apply not_le.mpr
      have hyv := rrfContribution_other_le k hk v A y hv hne
      have hyl := rrfContribution_other_le k hk l A y hl hne
      have : rrfScore v l k y ≤ 1 / ((k : ℚ) + 2) + 1 / ((k : ℚ) + 2) := by
        unfold rrfScore
        exact add_le_add hyv hyl
      rw [hA]
      linarith

/-- Witness for C5 at concrete ranked lists. -/
theorem rrf_merge_rank1_dominance_witness :
    rrfScore [("b", (1 : ℚ))] [] 1 "b" < rrfScore [("a", (1 : ℚ))] [("a", 1)] 1 "a"
    ∧ (rrf_merge [("a", (1 : ℚ))] [("a", 1)] 1).head? = some "a" :=
  rrf_merge_rank1_dominance 1 (by decide) [("a", (1 : ℚ))] [("a", 1)] "a"
    (by decide) (by decide) [("b", (1 : ℚ))] [] "b" (Or.inl ⟨by decide, rfl⟩)

/-! ### Claim C8 -/

theorem ascii_lowerChar_facts :
    ∀ n, n < 128 → lowerChar (lowerChar (Char.ofNat n)) = lowerChar (Char.ofNat n) := by
  decide

/-- Lower-casing is idempotent on ASCII characters. -/
theorem lowerChar_idem (c : Char) (hc : c.toNat < 128) :
    lowerChar (lowerChar c) = lowerChar c := by
  have h := ascii_lowerChar_facts c.toNat hc
  rwa [Char.ofNat_toNat] at h

theorem map_eq_self_of {α : Type} {f : α → α} :
    ∀ {l : List α}, (∀ c ∈ l, f c = c) → l.map f = l
  | [], _ => rfl
  | c :: cs, h => by
    rw [List.map_cons, h c (List.mem_cons_self c cs),
      map_eq_self_of (fun d hd => h d (List.mem_cons_of_mem c hd))]

/-- A run headed by a `p`-character always yields at least one token. -/
theorem runsWhile_ne_nil (p : Char → Bool) (d : Char) :
    ∀ cs : List Char, p d = true → runsWhile p (d :: cs) ≠ []
  | [], hd => by simp [runsWhile, hd]
  | c :: cs2, hd => by
    unfold runsWhile
    dsimp only
    rw [if_pos hd]
    by_cases hc : p c = true
    · rw [if_pos hc]
      cases runsWhile p (c :: cs2) with
      | nil => simp
      | cons t ts => simp
    · rw [if_neg hc]
      simp

/-- A leading non-`p` character is dropped. -/
theorem runsWhile_cons_neg (p : Char → Bool) (a : Char) :
    ∀ l : List Char, p a = false → runsWhile p (a :: l) = runsWhile p l
  | [], ha => by simp [runsWhile, ha]
  | b :: l2, ha => by
    unfold runsWhile
    dsimp only
    rw [if_neg (by simp [ha])]
    cases l2 with
    | nil => rfl
    | cons x l3 => rfl

/-- Every token of `runsWhile` is a non-empty run of `p`-characters. -/
theorem runsWhile_tokens (p : Char → Bool) :
    ∀ l : List Char, ∀ t ∈ runsWhile p l, t ≠ [] ∧ ∀ c ∈ t, p c = true
  | [] => by simp [runsWhile]
  | [c] => by
    intro t ht
    by_cases hc : p c = true
    · simp only [runsWhile, if_pos hc, List.mem_singleton] at ht
      subst ht
      exact ⟨by simp, fun e he => by rw [List.mem_singleton] at he; subst he; exact hc⟩
    · simp [runsWhile, hc] at ht
  | c :: d :: cs => by
    intro t ht
    unfold runsWhile at ht
    dsimp only at ht
    by_cases hc : p c = true
    · rw [if_pos hc] at ht
      by_cases hd : p d = true
      · rw [if_pos hd] at ht
        cases hr : runsWhile p (d :: cs) with
        | nil => exact absurd hr (runsWhile_ne_nil p d cs hd)
        | cons t0 ts0 =>
          rw [hr] at ht
          dsimp only at ht
          rcases List.mem_cons.mp ht with rfl | ht2
          · have h0 := runsWhile_tokens p (d :: cs) t0 (hr ▸ List.mem_cons_self t0 ts0)
            refine ⟨by simp, ?_⟩
            intro e he
            rcases List.mem_cons.mp he with rfl | he2
            · exact hc
            · exact h0.2 e he2
          · exact runsWhile_tokens p (d :: cs) t (hr ▸ List.mem_cons_of_mem t0 ht2)
      · rw [if_neg hd] at ht
        rcases List.mem_cons.mp ht with rfl | ht2
        · exact ⟨by simp, fun e he => by rw [List.mem_singleton] at he; subst he; exact hc⟩
        · exact runsWhile_tokens p (d :: cs) t ht2
    · rw [if_neg hc] at ht
      exact runsWhile_tokens p (d :: cs) t ht

/-- Token characters come from the tokenized list. -/
theorem runsWhile_chars_mem (p : Char → Bool) :
    ∀ l : List Char, ∀ t ∈ runsWhile p l, ∀ c ∈ t, c ∈ l
  | [] => by simp [runsWhile]
  | [c] => by
    intro t ht e he
    by_cases hc : p c = true
    · simp only [runsWhile, if_pos hc, List.mem_singleton] at ht
      subst ht
      rw [List.mem_singleton] at he
      subst he
      exact List.mem_cons_self e []
    · simp [runsWhile, hc] at ht
  | c :: d :: cs => by
    intro t ht e he
    unfold runsWhile at ht
    dsimp only at ht
    by_cases hc : p c = true
    · rw [if_pos hc] at ht
      by_cases hd : p d = true
      · rw [if_pos hd] at ht
        cases hr : runsWhile p (d :: cs) with
        | nil => exact absurd hr (runsWhile_ne_nil p d cs hd)
        | cons t0 ts0 =>
          rw [hr] at ht
          dsimp only at ht
          rcases List.mem_cons.mp ht with rfl | ht2
          · rcases List.mem_cons.mp he with rfl | he2
            · exact List.mem_cons_self e _
            · exact List.mem_cons_of_mem c
                (runsWhile_chars_mem p (d :: cs) t0 (hr ▸ List.mem_cons_self t0 ts0) e he2)
          · exact List.mem_cons_of_mem c
              (runsWhile_chars_mem p (d :: cs) t (hr ▸ List.mem_cons_of_mem t0 ht2) e he)
      · rw [if_neg hd] at ht
        rcases List.mem_cons.mp ht with rfl | ht2
        · rw [List.mem_singleton] at he
          subst he
          exact List.mem_cons_self e _
        · exact List.mem_cons_of_mem c
            (runsWhile_chars_mem p (d :: cs) t ht2 e he)
    · rw [if_neg hc] at ht
      exact List.mem_cons_of_mem c (runsWhile_chars_mem p (d :: cs) t ht e he)

/-- A non-empty all-`p` run is one token. -/
theorem runsWhile_all (p : Char → Bool) :
    ∀ t : List Char, t ≠ [] → (∀ c ∈ t, p c = true) → runsWhile p t = [t]
  | [], h, _ => absurd rfl h
  | [c], _, hall => by
    have hc : p c = true := hall c (List.mem_singleton_self c)
    simp [runsWhile, hc]
  | c :: c2 :: t2, _, hall => by
    have hc : p c = true := hall c (List.mem_cons_self c _)
    have hc2 : p c2 = true := hall c2 (List.mem_cons_of_mem c (List.mem_cons_self c2 t2))
    have ih := runsWhile_all p (c2 :: t2) (by simp)
      (fun d hd => hall d (List.mem_cons_of_mem c hd))
    unfold runsWhile
    dsimp only
    rw [if_pos hc, if_pos hc2, ih]

/-- Prepending a non-empty all-`p` run and a separator to a tail tokenizes
to that run followed by the tokens of the tail. -/
theorem runsWhile_append (p : Char → Bool) (sep : Char) (hsep : p sep = false) :
    ∀ (t rest : List Char), t ≠ [] → (∀ c ∈ t, p c = true) →
      runsWhile p (t ++ sep :: rest) = t :: runsWhile p rest
  | [], _, h, _ => absurd rfl h
  | [c], rest, _, hall => by
    have hc : p c = true := hall c (List.mem_singleton_self c)
    show runsWhile p (c :: sep :: rest) = [c] :: runsWhile p rest
    unfold runsWhile
    dsimp only
    rw [if_pos hc, if_neg (by simp [hsep]), runsWhile_cons_neg p sep rest hsep]
    cases rest with
    | nil => rfl
    | cons x l3 =>
      cases l3 with
      | nil => rfl
      | cons y l4 => rfl
  | c :: c2 :: t2, rest, _, hall => by
    have hc : p c = true := hall c (List.mem_cons_self c _)
    have hc2 : p c2 = true := hall c2 (List.mem_cons_of_mem c (List.mem_cons_self c2 t2))
    have ih := runsWhile_append p sep hsep (c2 :: t2) rest (by simp)
      (fun d hd => hall d (List.mem_cons_of_mem c hd))
    rw [List.cons_append] at ih
    show runsWhile p (c :: (c2 :: t2 ++ sep :: rest)) = (c :: c2 :: t2) :: runsWhile p rest
    rw [List.cons_append]
    unfold runsWhile
    dsimp only
    rw [if_pos hc, if_pos hc2, ih]
    dsimp only
    cases rest with
    | nil => rfl
    | cons x l3 =>
      cases l3 with
      | nil => rfl
      | cons y l4 => rfl

/-- Joining non-empty all-`p` tokens with a non-`p` separator and splitting
again recovers the tokens. -/
theorem runsWhile_joinSpaceChars (p : Char → Bool) (hsep : p ' ' = false) :
    ∀ ts : List (List Char), (∀ t ∈ ts, t ≠ [] ∧ ∀ c ∈ t, p c = true) →
      runsWhile p (joinSpaceChars ts) = ts
  | [], _ => rfl
  | [t], h => by
    obtain ⟨hne, hall⟩ := h t (List.mem_singleton_self t)
    show runsWhile p t = [t]
    exact runsWhile_all p t hne hall
  | t :: t2 :: ts, h => by
    obtain ⟨hne, hall⟩ := h t (List.mem_cons_self t _)
    have ih := runsWhile_joinSpaceChars p hsep (t2 :: ts)
      (fun u hu => h u (List.mem_cons_of_mem t hu))
    show runsWhile p (t ++ ' ' :: joinSpaceChars (t2 :: ts)) = t :: t2 :: ts
    rw [runsWhile_append p ' ' hsep t (joinSpaceChars (t2 :: ts)) hne hall, ih]

/-- Characters of the joined token list are token characters or the space
separator. -/
theorem mem_joinSpaceChars {c : Char} :
    ∀ {ts : List (List Char)}, c ∈ joinSpaceChars ts →
      (∃ t ∈ ts, c ∈ t) ∨ c = ' '
  | [], h => by cases h
  | [t], h => Or.inl ⟨t, List.mem_singleton_self t, h⟩
  | t :: t2 :: ts, h => by
    rcases List.mem_append.mp h with h1 | h1
    · exact Or.inl ⟨t, List.mem_cons_self t _, h1⟩
    · rcases List.mem_cons.mp h1 with rfl | h2
      · exact Or.inr rfl
      · rcases mem_joinSpaceChars h2 with ⟨u, hu, hcu⟩ | hsp
        · exact Or.inl ⟨u, List.mem_cons_of_mem t hu, hcu⟩
        · exact Or.inr hsp

/-- Joining tokens as strings matches `joinSpaceChars` on the underlying character lists. -/
theorem data_tokenizeJoin :
    ∀ ss : List String, (tokenizeJoin ss).data = joinSpaceChars (ss.map String.data)
  | [] => rfl
  | [t] => rfl
  | t :: t2 :: ts => by
    show (t ++ " " ++ tokenizeJoin (t2 :: ts)).data = _
    rw [String.data_append, String.data_append, data_tokenizeJoin (t2 :: ts)]
    simp [joinSpaceChars]

/-- C8: on ASCII input the tokenizer is round-trip idempotent — tokenizing,
rejoining the tokens with single spaces, and tokenizing again yields the
same token list. -/
theorem tokenize_roundtrip (s : String) (hascii : ∀ c ∈ s.data, c.toNat < 128) :
    tokenize (tokenizeJoin (tokenize s)) = tokenize s := by
  unfold tokenize
  set ls := s.data.map lowerChar with hls
  set ts := runsWhile isWordChar ls with hts
  have hdata : (tokenizeJoin (ts.map List.asString)).data = joinSpaceChars ts := by
    rw [data_tokenizeJoin]
    congr 1
    rw [List.map_map]
    exact map_eq_self_of (fun t _ => rfl)
  rw [hdata]
  have hfix : (joinSpaceChars ts).map lowerChar = joinSpaceChars ts := by
    apply map_eq_self_of
    intro c hc
    rcases mem_joinSpaceChars hc with ⟨t, ht, hct⟩ | rfl
    · have hcl : c ∈ ls := runsWhile_chars_mem isWordChar ls t ht c hct
      rw [hls] at hcl
      obtain ⟨c0, hc0, rfl⟩ := List.mem_map.mp hcl
      exact lowerChar_idem c0 (hascii c0 hc0)
    · decide
  rw [hfix]
  rw [runsWhile_joinSpaceChars isWordChar (by decide) ts (runsWhile_tokens isWordChar ls)]

/-- Witness for C8 on a concrete ASCII string. -/
theorem tokenize_roundtrip_witness :
    tokenize (tokenizeJoin (tokenize "Fed rate, CUT!")) = tokenize "Fed rate, CUT!" :=
  tokenize_roundtrip "Fed rate, CUT!" (by decide)

end ChromadbApi
